import Mathlib

/-!
Shallow embedding of `src/buffer_cache/alt/cache_balancer.cc` (the alt cache
balancer of a sharded buffer cache) and proofs about its rebalancing
algorithm: the trigger policy (`on_ring`), the proportional sizing formula
with binary64 intermediates, the exact-conservation remainder-distribution
loop, the per-thread apply step, and the read-ahead latch.

Machine integers are modelled as `Nat`/`Int` (the values occurring in a pass
stay far below the 64-bit overflow boundary, where the C++ arithmetic agrees
with unbounded integers).  The `double` intermediates of the sizing formula
are modelled exactly: a nonnegative binary64 value is a dyadic rational
`m * 2 ^ exp`, and every operation rounds to 53 significand bits with
round-to-nearest, ties-to-even, as IEEE-754 prescribes for the normal range
(the magnitudes occurring here, quotients and products of `uint64` values,
never overflow, and never reach the subnormal range).
-/

set_option maxRecDepth 100000

namespace CacheBalancer

/-- Constant from cache_balancer.cc line 7. -/
def rebalance_check_interval_ms : ℕ := 20

/-- Constant from cache_balancer.cc line 8. -/
def rebalance_access_count_threshold : ℕ := 100

/-- Constant from cache_balancer.cc line 9. -/
def rebalance_timeout_ms : ℕ := 500

/-- Constant from cache_balancer.cc line 13. -/
def read_ahead_ratio_numerator : ℕ := 9

/-- Constant from cache_balancer.cc line 14. -/
def read_ahead_ratio_denominator : ℕ := 10

/-- The slice of an `alt::evicter_t` the balancer interacts with:
`get_memory_limit()`, `get_bytes_loaded()`, `in_memory_size()` (reads) and
`update_memory_limit()` (write, modelled below). -/
structure evicter_t where
  memory_limit : ℕ
  bytes_loaded : ℕ
  in_memory_size : ℕ
deriving DecidableEq

/-- Per-thread registry (`thread_info_t` in the header): the access counter
and the set of registered evicters.  Evicters are identified by `ℕ` handles
(the pointers of the C++ code); a `std::set` iterates them in a fixed order,
modelled by the list order. -/
structure thread_info_t where
  access_count : ℕ
  evicters : List ℕ
deriving DecidableEq

/-- Ephemeral per-evicter record of one rebalance pass (`cache_data_t`,
cache_balancer.cc lines 16-20).  `new_size` is carried as `ℤ` because the
loop's arithmetic happens in `int64_t`. -/
structure cache_data_t where
  evicter : ℕ
  new_size : ℤ
  old_size : ℕ
  bytes_loaded : ℕ
deriving DecidableEq

/-- Balancer state (`alt_cache_balancer_t`, constructor lines 22-28), plus
`heap`, which maps each evicter handle to the evicter object it points to
(the external collaborators the registry references). -/
structure balancer_t where
  total_cache_size : ℕ
  last_rebalance_time : ℕ
  read_ahead_ok : Bool
  thread_info : List thread_info_t
  heap : ℕ → evicter_t

/-! ## Exact model of the binary64 (`double`) intermediates -/

/-- Floor of the base-2 logarithm, by repeated halving (`fuel`-driven so the
recursion is structural; `log2Aux n n` is exact for every `n ≥ 1`). -/
def log2Aux : ℕ → ℕ → ℕ
  | 0, _ => 0
  | fuel + 1, n => if n ≤ 1 then 0 else 1 + log2Aux fuel (n / 2)

/-- Floor of `log2 n` for `n ≥ 1`. -/
def natLog2 (n : ℕ) : ℕ := log2Aux n n

/-- Round the fraction `num / den` (`den > 0`) to the nearest integer,
ties to even. -/
def rnEven (num den : ℕ) : ℕ :=
  let q := num / den
  let r := num % den
  if 2 * r < den then q
  else if den < 2 * r then q + 1
  else if q % 2 = 0 then q else q + 1

/-- Floor of `log2 (a / b)` for `a, b ≥ 1`. -/
def fracLog2 (a b : ℕ) : ℤ :=
  let la := natLog2 a
  let lb := natLog2 b
  if b * 2 ^ la ≤ a * 2 ^ lb then (la : ℤ) - lb else (la : ℤ) - lb - 1

/-- Nonnegative binary64 value `m * 2 ^ exp`. -/
structure fp64 where
  m : ℕ
  exp : ℤ
deriving DecidableEq

/-- Round the nonnegative rational `a / b` to the nearest binary64: scale to
a 53-bit significand (the leading bit at position 52) and round to nearest,
ties to even.  Zero maps to zero; `b = 0` never occurs in reachable calls
(division by the cache size is guarded by `total_cache_size > 0`). -/
def fpRound (a b : ℕ) : fp64 :=
  if a = 0 ∨ b = 0 then ⟨0, 0⟩
  else
    let e := fracLog2 a b
    let m := if e ≤ 52 then rnEven (a * 2 ^ (52 - e).toNat) b
             else rnEven a (b * 2 ^ (e - 52).toNat)
    ⟨m, e - 52⟩

/-- Conversion `uint64 → double` (rounds when the value needs more than 53
bits). -/
def u64ToDouble (x : ℕ) : fp64 := fpRound x 1

/-- Binary64 division (`temp /= ...`, line 117): exact quotient, then one
rounding. -/
def fpDiv (x y : fp64) : fp64 :=
  if 0 ≤ x.exp - y.exp then fpRound (x.m * 2 ^ (x.exp - y.exp).toNat) y.m
  else fpRound x.m (y.m * 2 ^ (y.exp - x.exp).toNat)

/-- Binary64 multiplication (`temp *= ...`, line 118): exact product, then
one rounding. -/
def fpMul (x y : fp64) : fp64 :=
  if 0 ≤ x.exp + y.exp then fpRound (x.m * y.m * 2 ^ (x.exp + y.exp).toNat) 1
  else fpRound (x.m * y.m) (2 ^ (-(x.exp + y.exp)).toNat)

/-- Conversion `double → int64_t` (`static_cast<int64_t>(temp)`, line 121):
truncation toward zero, which for the nonnegative values at hand is the
floor. -/
def fpToInt (x : fp64) : ℤ :=
  if 0 ≤ x.exp then (x.m : ℤ) * 2 ^ x.exp.toNat else ((x.m / 2 ^ (-x.exp).toNat : ℕ) : ℤ)

/-! ## Trigger policy (`on_ring`, lines 54-80) -/

/-- Sum of `access_count` over all threads (lines 63-68). -/
def totalAccesses (st : balancer_t) : ℕ :=
  (st.thread_info.map thread_info_t.access_count).sum

/-- Timer tick (lines 54-80).  `now` is the current microtime.  The returned
`Bool` records whether a rebalance request was pushed into the single-flight
queue (`pool_queue.give_value`, line 79). -/
def on_ring (st : balancer_t) (now : ℕ) : balancer_t × Bool :=
  if st.last_rebalance_time + rebalance_timeout_ms * 1000 > now then
    if totalAccesses st < rebalance_access_count_threshold then (st, false)
    else ({ st with last_rebalance_time := now }, true)
  else ({ st with last_rebalance_time := now }, true)

/-! ## Rebalance pass: snapshot and sizing (lines 82-128) -/

/-- Snapshot of one evicter (`cache_data_t` constructor, lines 16-20). -/
def mkCacheData (heap : ℕ → evicter_t) (e : ℕ) : cache_data_t :=
  ⟨e, 0, (heap e).memory_limit, (heap e).bytes_loaded⟩

/-- Per-thread snapshot (`per_thread_data`, lines 93-106). -/
def snapshot (st : balancer_t) : List (List cache_data_t) :=
  st.thread_info.map (fun ti => ti.evicters.map (mkCacheData st.heap))

/-- Number of snapshotted evicters (`total_evicters`, line 99). -/
def total_evicters (st : balancer_t) : ℕ :=
  ((snapshot st).map List.length).sum

/-- Sum of `bytes_loaded` over the snapshot (`total_bytes_loaded`,
line 104). -/
def total_bytes_loaded (st : balancer_t) : ℕ :=
  ((snapshot st).flatten.map cache_data_t.bytes_loaded).sum

/-- Sizing of one record (lines 116-125): `temp = old_size / total_cache_size
* total_bytes_loaded` in `double`, then `new_size = max(bytes_loaded -
(int64_t)temp + old_size, 0)` in `int64_t`. -/
def sizedRecord (tcs tbl : ℕ) (d : cache_data_t) : cache_data_t :=
  let temp := fpMul (fpDiv (u64ToDouble d.old_size) (u64ToDouble tcs)) (u64ToDouble tbl)
  { d with new_size := max ((d.bytes_loaded : ℤ) - fpToInt temp + d.old_size) 0 }

/-- The snapshot after the sizing loop (lines 112-128). -/
def sizedData (st : balancer_t) : List (List cache_data_t) :=
  (snapshot st).map (List.map (sizedRecord st.total_cache_size (total_bytes_loaded st)))

/-- Sum of the `new_size` fields of a record list. -/
def newSizeSum (l : List cache_data_t) : ℤ :=
  (l.map cache_data_t.new_size).sum

/-- Rounding error to distribute (`extra_bytes`, line 131). -/
def extra_bytes (st : balancer_t) : ℤ :=
  (st.total_cache_size : ℤ) - newSizeSum (sizedData st).flatten

/-! ## Remainder distribution (lines 130-151) -/

/-- Inner sweep of the distribution loop over one thread's records
(lines 138-149), threading `extra_bytes` and stopping early once it reaches
zero: a record absorbs `delta` when that keeps it nonnegative, otherwise it
donates its whole `new_size` back and is clamped to zero. -/
def distribPass (delta : ℤ) : List cache_data_t → ℤ → List cache_data_t × ℤ
  | [], e => ([], e)
  | d :: rest, e =>
    if e = 0 then (d :: rest, e)
    else if 0 ≤ d.new_size + delta then
      let r := distribPass delta rest (e - delta)
      ({ d with new_size := d.new_size + delta } :: r.1, r.2)
    else
      let r := distribPass delta rest (e + d.new_size)
      ({ d with new_size := 0 } :: r.1, r.2)

/-- The two nested sweeps over `per_thread_data` (lines 137-150), with the
early exit checked at both levels. -/
def distribPassNested (delta : ℤ) :
    List (List cache_data_t) → ℤ → List (List cache_data_t) × ℤ
  | [], e => ([], e)
  | l :: rest, e =>
    if e = 0 then (l :: rest, e)
    else
      let r := distribPass delta l e
      let r2 := distribPassNested delta rest r.2
      (r.1 :: r2.1, r2.2)

/-- Per-pass step size (lines 133-136): `extra_bytes / total_evicters` in
`int64_t` (truncating division), bumped to `±1` when it truncates to zero. -/
def deltaFor (e : ℤ) (n : ℕ) : ℤ :=
  let d := e.tdiv (n : ℤ)
  if d = 0 then (if e < 0 then -1 else 1) else d

/-- The `while (extra_bytes != 0)` loop (lines 132-151).  The recursion is
driven by explicit fuel; `distribLoop_spec` below proves that fuel
`|extra_bytes|` always suffices on the states the code reaches, so the
`none` case is never taken there. -/
def distribLoop (n : ℕ) : ℕ → List (List cache_data_t) → ℤ → Option (List (List cache_data_t))
  | 0, lss, e => if e = 0 then some lss else none
  | fuel + 1, lss, e =>
    if e = 0 then some lss
    else
      let r := distribPassNested (deltaFor e n) lss e
      distribLoop n fuel r.1 r.2

/-- The per-thread record lists after remainder distribution. -/
def rebalanced (st : balancer_t) : List (List cache_data_t) :=
  (distribLoop (total_evicters st) (extra_bytes st).natAbs (sizedData st)
    (extra_bytes st)).getD (sizedData st)

/-! ## Apply/dispatch (`apply_rebalance_to_thread`, lines 172-198) -/

/-- Write of a new memory limit into one evicter
(`update_memory_limit`, line 189). -/
def update_memory_limit (heap : ℕ → evicter_t) (e : ℕ) (lim : ℕ) : ℕ → evicter_t :=
  fun x => if x = e then { heap x with memory_limit := lim } else heap x

/-- Loop of lines 186-194: for each record whose evicter is still registered,
update its limit and accumulate its in-memory footprint; silently skip
records whose evicter has vanished from the registry. -/
def applyLoop (evs : List ℕ) : List cache_data_t → (ℕ → evicter_t) → (ℕ → evicter_t) × ℕ
  | [], heap => (heap, 0)
  | d :: rest, heap =>
    if d.evicter ∈ evs then
      let h1 := update_memory_limit heap d.evicter d.new_size.toNat
      let r := applyLoop evs rest h1
      (r.1, (h1 d.evicter).in_memory_size + r.2)
    else applyLoop evs rest heap

/-- One thread's apply step (lines 172-198): run the loop against the
thread's current registry, then reset the thread's access counter
(line 197).  Returns the updated heap, the thread's `cache_in_use` entry and
the updated `thread_info`. -/
def apply_rebalance_to_thread (heap : ℕ → evicter_t) (ti : thread_info_t)
    (sizes : List cache_data_t) : (ℕ → evicter_t) × ℕ × thread_info_t :=
  let r := applyLoop ti.evicters sizes heap
  (r.1, r.2, { ti with access_count := 0 })

/-- Fan-out of the apply step over all threads (`pmap`, lines 154-156),
linearized in thread order (each evicter is owned by a single thread, so the
per-thread updates are independent). -/
def applyAll : List (thread_info_t × List cache_data_t) → (ℕ → evicter_t) →
    (ℕ → evicter_t) × List ℕ × List thread_info_t
  | [], heap => (heap, [], [])
  | p :: rest, heap =>
    let r := apply_rebalance_to_thread heap p.1 p.2
    let rr := applyAll rest r.1
    (rr.1, r.2.1 :: rr.2.1, r.2.2 :: rr.2.2)

/-- Result of dispatching the rebalanced sizes to every thread. -/
def applyResult (st : balancer_t) : (ℕ → evicter_t) × List ℕ × List thread_info_t :=
  applyAll (st.thread_info.zip (rebalanced st)) st.heap

/-- Total cache in use, summed over the per-thread accumulators
(lines 161-164). -/
def cache_usage (st : balancer_t) : ℕ :=
  (applyResult st).2.1.sum

/-- One full rebalance pass (`coro_pool_callback`, lines 82-170): snapshot,
the `total_cache_size > 0 && total_evicters > 0` guard, sizing, remainder
distribution, dispatch, and the read-ahead latch update (lines 158-168). -/
def coro_pool_callback (st : balancer_t) : balancer_t :=
  if 0 < st.total_cache_size ∧ 0 < total_evicters st then
    let r := applyResult st
    let st1 := { st with heap := r.1, thread_info := r.2.2 }
    if st.read_ahead_ok then
      let ok := decide (cache_usage st * read_ahead_ratio_denominator <
                        st.total_cache_size * read_ahead_ratio_numerator)
      { st1 with read_ahead_ok := ok }
    else st1
  else st

/-- The non-`new_size` fields of a record list; every sweep of the
distribution loop preserves them. -/
def shapeOf (l : List cache_data_t) : List (ℕ × ℕ × ℕ) :=
  l.map fun d => (d.evicter, d.old_size, d.bytes_loaded)

/-- An environment step between two rebalance passes: the outside world
(evicters loading data, registrations, accesses) may change the heap and
the per-thread registries arbitrarily, but never touches the balancer's
latch. -/
def applyEnv (st : balancer_t) (env : (ℕ → evicter_t) × List thread_info_t) : balancer_t :=
  { st with heap := env.1, thread_info := env.2 }

/-- The spec's worked sizing scenario: two evicters on one thread,
A = (old 600, loaded 300), B = (old 400, loaded 100), budget 1000. -/
def stC3 : balancer_t :=
  { total_cache_size := 1000, last_rebalance_time := 0, read_ahead_ok := true,
    thread_info := [⟨0, [1, 2]⟩],
    heap := fun x => if x = 1 then ⟨600, 300, 0⟩
            else if x = 2 then ⟨400, 100, 0⟩ else ⟨0, 0, 0⟩ }

/-- Concrete pass input: one evicter (old 5, loaded 3), budget 10. -/
def stC1 : balancer_t :=
  { total_cache_size := 10, last_rebalance_time := 0, read_ahead_ok := true,
    thread_info := [⟨0, [1]⟩], heap := fun _ => ⟨5, 3, 0⟩ }

/-- Concrete trigger-policy state: no accesses yet. -/
def stC4 : balancer_t :=
  { total_cache_size := 0, last_rebalance_time := 0, read_ahead_ok := true,
    thread_info := [⟨0, []⟩], heap := fun _ => ⟨0, 0, 0⟩ }

/-- Concrete latched state: `read_ahead_ok` already false. -/
def stC5 : balancer_t :=
  { total_cache_size := 10, last_rebalance_time := 0, read_ahead_ok := false,
    thread_info := [⟨0, [1]⟩], heap := fun _ => ⟨5, 0, 2⟩ }

/-- The spec's latch scenario: budget 1000 with 920 bytes in memory. -/
def stC6 : balancer_t :=
  { total_cache_size := 1000, last_rebalance_time := 0, read_ahead_ok := true,
    thread_info := [⟨0, [1]⟩], heap := fun _ => ⟨1000, 0, 920⟩ }

/-- Concrete early-exit state: a registry with no evicters at all. -/
def stC7 : balancer_t :=
  { total_cache_size := 64, last_rebalance_time := 0, read_ahead_ok := true,
    thread_info := [⟨3, []⟩], heap := fun _ => ⟨0, 0, 0⟩ }

/-- Concrete apply-step heap: evicter 1 live, evicter 2 already torn down. -/
def heapC8 : ℕ → evicter_t :=
  fun x => if x = 1 then ⟨50, 0, 7⟩ else ⟨60, 0, 8⟩

/-- Concrete apply-step registry: only evicter 1 still registered. -/
def tiC8 : thread_info_t := ⟨9, [1]⟩

/-- Concrete apply-step snapshot: records for evicters 1 and 2. -/
def sizesC8 : List cache_data_t := [⟨1, 30, 50, 0⟩, ⟨2, 40, 60, 0⟩]

/-- Concrete no-load state: one evicter holding exactly the budget. -/
def stC9 : balancer_t :=
  { total_cache_size := 10, last_rebalance_time := 0, read_ahead_ok := true,
    thread_info := [⟨0, [1]⟩], heap := fun _ => ⟨10, 0, 4⟩ }

/-- Concrete early-exit state with a zero budget and nonzero counters. -/
def stC10 : balancer_t :=
  { total_cache_size := 0, last_rebalance_time := 0, read_ahead_ok := true,
    thread_info := [⟨7, [1]⟩], heap := fun _ => ⟨5, 1, 2⟩ }

/-- Concrete full-pass state used to show counter resets. -/
def stC10full : balancer_t :=
  { total_cache_size := 10, last_rebalance_time := 0, read_ahead_ok := true,
    thread_info := [⟨7, [1]⟩], heap := fun _ => ⟨10, 0, 4⟩ }

/-! ## Invariants of one sweep of the distribution loop -/

theorem distribPass_zero (delta : ℤ) (l : List cache_data_t) :
    distribPass delta l 0 = (l, 0) := by
  cases l <;> simp [distribPass]

theorem distribPass_sum (delta : ℤ) (l : List cache_data_t) (e : ℤ) :
    (distribPass delta l e).2 + newSizeSum (distribPass delta l e).1 = e + newSizeSum l := by
  induction l generalizing e with
  | nil => simp [distribPass]
  | cons d rest ih =>
    by_cases h0 : e = 0
    · simp [distribPass, h0]
    · by_cases h1 : 0 ≤ d.new_size + delta
      · have := ih (e - delta)
        simp only [distribPass, if_neg h0, if_pos h1, newSizeSum, List.map_cons,
          List.sum_cons] at *
        omega
      · have := ih (e + d.new_size)
        simp only [distribPass, if_neg h0, if_neg h1, newSizeSum, List.map_cons,
          List.sum_cons] at *
        omega

theorem distribPass_nonneg (delta : ℤ) (l : List cache_data_t) (e : ℤ)
    (h : ∀ d ∈ l, 0 ≤ d.new_size) :
    ∀ d ∈ (distribPass delta l e).1, 0 ≤ d.new_size := by
  induction l generalizing e with
  | nil => simp [distribPass]
  | cons d rest ih =>
    by_cases h0 : e = 0
    · simpa [distribPass, h0] using h
    · by_cases h1 : 0 ≤ d.new_size + delta
      · simp only [distribPass, if_neg h0, if_pos h1]
        intro x hx
        rcases List.mem_cons.mp hx with hx | hx
        · subst hx; simpa using h1
        · exact ih (e - delta) (fun y hy => h y (List.mem_cons_of_mem _ hy)) x hx
      · simp only [distribPass, if_neg h0, if_neg h1]
        intro x hx
        rcases List.mem_cons.mp hx with hx | hx
        · subst hx; simp
        · exact ih (e + d.new_size) (fun y hy => h y (List.mem_cons_of_mem _ hy)) x hx

theorem distribPass_shape (delta : ℤ) (l : List cache_data_t) (e : ℤ) :
    shapeOf (distribPass delta l e).1 = shapeOf l := by
  induction l generalizing e with
  | nil => simp [distribPass]
  | cons d rest ih =>
    by_cases h0 : e = 0
    · simp [distribPass, h0]
    · by_cases h1 : 0 ≤ d.new_size + delta
      · simp [distribPass, if_neg h0, if_pos h1, shapeOf] at *
        exact ih (e - delta)
      · simp [distribPass, if_neg h0, if_neg h1, shapeOf] at *
        exact ih (e + d.new_size)

theorem distribPass_append (delta : ℤ) (l1 l2 : List cache_data_t) (e : ℤ) :
    distribPass delta (l1 ++ l2) e =
      ((distribPass delta l1 e).1 ++ (distribPass delta l2 (distribPass delta l1 e).2).1,
       (distribPass delta l2 (distribPass delta l1 e).2).2) := by
  induction l1 generalizing e with
  | nil => simp [distribPass]
  | cons d rest ih =>
    by_cases h0 : e = 0
    · simp [distribPass, h0, distribPass_zero]
    · by_cases h1 : 0 ≤ d.new_size + delta
      · simp only [List.cons_append, distribPass, if_neg h0, if_pos h1]
        simp [ih (e - delta)]
      · simp only [List.cons_append, distribPass, if_neg h0, if_neg h1]
        simp [ih (e + d.new_size)]

theorem distribPassNested_eq (delta : ℤ) (lss : List (List cache_data_t)) (e : ℤ) :
    (distribPassNested delta lss e).1.flatten = (distribPass delta lss.flatten e).1 ∧
    (distribPassNested delta lss e).2 = (distribPass delta lss.flatten e).2 := by
  induction lss generalizing e with
  | nil => simp [distribPassNested, distribPass]
  | cons l rest ih =>
    by_cases h0 : e = 0
    · simp [distribPassNested, h0, distribPass_zero]
    · have happ := distribPass_append delta l rest.flatten e
      have := ih (distribPass delta l e).2
      simp only [distribPassNested, if_neg h0, List.flatten_cons, happ]
      constructor
      · simp [this.1]
      · simp [this.2]

theorem distribPassNested_shape (delta : ℤ) (lss : List (List cache_data_t)) (e : ℤ) :
    (distribPassNested delta lss e).1.map shapeOf = lss.map shapeOf := by
  induction lss generalizing e with
  | nil => simp [distribPassNested]
  | cons l rest ih =>
    by_cases h0 : e = 0
    · simp [distribPassNested, h0]
    · simp [distribPassNested, if_neg h0, distribPass_shape, ih]

/-! ## Progress of one full sweep -/

theorem distribPass_pos_full (delta : ℤ) (hd : 0 < delta) (l : List cache_data_t) (e : ℤ)
    (hnn : ∀ d ∈ l, 0 ≤ d.new_size) (he : (l.length : ℤ) * delta ≤ e) :
    (distribPass delta l e).2 = e - l.length * delta := by
  induction l generalizing e with
  | nil => simp [distribPass]
  | cons d rest ih =>
    have hd0 : 0 ≤ d.new_size := hnn d (List.mem_cons_self d rest)
    have hx : (((d :: rest).length : ℕ) : ℤ) * delta = (rest.length : ℤ) * delta + delta := by
      push_cast [List.length_cons]; ring
    have hP : (0 : ℤ) ≤ (rest.length : ℤ) * delta :=
      mul_nonneg (by positivity) hd.le
    rw [hx] at he
    have he0 : e ≠ 0 := by intro h; rw [h] at he; linarith
    have hguard : 0 ≤ d.new_size + delta := by linarith
    have ihh := ih (e - delta) (fun y hy => hnn y (List.mem_cons_of_mem _ hy)) (by linarith)
    simp only [distribPass, if_neg he0, if_pos hguard]
    rw [ihh, hx]
    ring

theorem distribPass_pos_one (l : List cache_data_t) (e : ℤ)
    (hnn : ∀ d ∈ l, 0 ≤ d.new_size) (h0 : 0 ≤ e) (hle : e ≤ (l.length : ℤ)) :
    (distribPass 1 l e).2 = 0 := by
  induction l generalizing e with
  | nil =>
    simp only [List.length_nil, Nat.cast_zero] at hle
    simp [distribPass]
    omega
  | cons d rest ih =>
    by_cases he : e = 0
    · simp [distribPass, he]
    · have hd0 : 0 ≤ d.new_size := hnn d (List.mem_cons_self d rest)
      have hguard : 0 ≤ d.new_size + 1 := by linarith
      simp only [List.length_cons] at hle
      have ihh := ih (e - 1) (fun y hy => hnn y (List.mem_cons_of_mem _ hy))
        (by omega) (by push_cast at hle ⊢; omega)
      simp only [distribPass, if_neg he, if_pos hguard]
      exact ihh

theorem distribPass_neg_mono (delta : ℤ) (hd : delta < 0) (l : List cache_data_t) (e : ℤ)
    (hnn : ∀ d ∈ l, 0 ≤ d.new_size) :
    e ≤ (distribPass delta l e).2 := by
  induction l generalizing e with
  | nil => simp [distribPass]
  | cons d rest ih =>
    by_cases he : e = 0
    · simp [distribPass, he]
    · have hd0 : 0 ≤ d.new_size := hnn d (List.mem_cons_self d rest)
      have hrest := fun y hy => hnn y (List.mem_cons_of_mem d hy)
      by_cases h1 : 0 ≤ d.new_size + delta
      · have := ih (e - delta) hrest
        simp only [distribPass, if_neg he, if_pos h1]
        linarith
      · have := ih (e + d.new_size) hrest
        simp only [distribPass, if_neg he, if_neg h1]
        linarith

theorem distribPass_neg_bound (delta : ℤ) (hd : delta < 0) (l : List cache_data_t) (e : ℤ)
    (hnn : ∀ d ∈ l, 0 ≤ d.new_size) (he : e ≤ 0)
    (hb : e + (l.length : ℤ) * (-delta) ≤ 0) :
    (distribPass delta l e).2 ≤ 0 := by
  induction l generalizing e with
  | nil => simpa [distribPass] using he
  | cons d rest ih =>
    by_cases he0 : e = 0
    · simp [distribPass, he0]
    · have hd0 : 0 ≤ d.new_size := hnn d (List.mem_cons_self d rest)
      have hrest := fun y hy => hnn y (List.mem_cons_of_mem d hy)
      have hx : (((d :: rest).length : ℕ) : ℤ) * (-delta) =
          (rest.length : ℤ) * (-delta) + (-delta) := by
        push_cast [List.length_cons]; ring
      rw [hx] at hb
      have hP : (0 : ℤ) ≤ (rest.length : ℤ) * (-delta) :=
        mul_nonneg (by positivity) (by linarith)
      by_cases h1 : 0 ≤ d.new_size + delta
      · have := ih (e - delta) hrest (by linarith) (by linarith)
        simp only [distribPass, if_neg he0, if_pos h1]
        exact this
      · have hlt : d.new_size < -delta := by linarith
        have := ih (e + d.new_size) hrest (by linarith) (by linarith)
        simp only [distribPass, if_neg he0, if_neg h1]
        exact this

theorem distribPass_negone_bound (l : List cache_data_t) (e : ℤ)
    (hnn : ∀ d ∈ l, 0 ≤ d.new_size) (he : e ≤ 0) :
    (distribPass (-1) l e).2 ≤ 0 := by
  induction l generalizing e with
  | nil => simpa [distribPass] using he
  | cons d rest ih =>
    by_cases he0 : e = 0
    · simp [distribPass, he0]
    · have hd0 : 0 ≤ d.new_size := hnn d (List.mem_cons_self d rest)
      have hrest := fun y hy => hnn y (List.mem_cons_of_mem d hy)
      by_cases h1 : 0 ≤ d.new_size + (-1 : ℤ)
      · have := ih (e - (-1)) hrest (by omega)
        simp only [distribPass, if_neg he0, if_pos h1]
        exact this
      · have hz : d.new_size = 0 := by omega
        have := ih (e + d.new_size) hrest (by omega)
        simp only [distribPass, if_neg he0, if_neg h1]
        exact this

theorem distribPass_neg_strict (delta : ℤ) (hd : delta < 0) (l : List cache_data_t) (e : ℤ)
    (hnn : ∀ d ∈ l, 0 ≤ d.new_size) (he : e < 0)
    (hex : ∃ d ∈ l, 0 < d.new_size) :
    e < (distribPass delta l e).2 := by
  induction l generalizing e with
  | nil => simp at hex
  | cons d rest ih =>
    have he0 : e ≠ 0 := he.ne
    have hd0 : 0 ≤ d.new_size := hnn d (List.mem_cons_self d rest)
    have hrest := fun y hy => hnn y (List.mem_cons_of_mem d hy)
    by_cases h1 : 0 ≤ d.new_size + delta
    · have := distribPass_neg_mono delta hd rest (e - delta) hrest
      simp only [distribPass, if_neg he0, if_pos h1]
      linarith
    · by_cases hdp : 0 < d.new_size
      · have := distribPass_neg_mono delta hd rest (e + d.new_size) hrest
        simp only [distribPass, if_neg he0, if_neg h1]
        linarith
      · have hz : d.new_size = 0 := by omega
        obtain ⟨x, hx, hxp⟩ := hex
        rcases List.mem_cons.mp hx with rfl | hx
        · omega
        · have hih := ih e hrest he ⟨x, hx, hxp⟩
          simp only [distribPass, if_neg he0, if_neg h1]
          simpa [hz] using hih

theorem exists_pos_of_sum_pos (l : List cache_data_t)
    (hnn : ∀ d ∈ l, 0 ≤ d.new_size) (h : 0 < newSizeSum l) :
    ∃ d ∈ l, 0 < d.new_size := by
  induction l with
  | nil => simp [newSizeSum] at h
  | cons d rest ih =>
    by_cases hd : 0 < d.new_size
    · exact ⟨d, List.mem_cons_self d rest, hd⟩
    · have hd0 : d.new_size = 0 := by
        have := hnn d (List.mem_cons_self d rest); omega
      have hr : 0 < newSizeSum rest := by
        simp only [newSizeSum, List.map_cons, List.sum_cons, hd0, zero_add] at h ⊢
        exact h
      obtain ⟨x, hx, hxp⟩ := ih (fun y hy => hnn y (List.mem_cons_of_mem d hy)) hr
      exact ⟨x, List.mem_cons_of_mem d hx, hxp⟩

/-- One full sweep of the `while` loop strictly shrinks `|extra_bytes|` (or
finishes): the heart of the termination argument. -/
theorem passNested_decreases (n : ℕ) (hn : 0 < n) (lss : List (List cache_data_t)) (e : ℤ)
    (he : e ≠ 0) (hnn : ∀ d ∈ lss.flatten, 0 ≤ d.new_size)
    (hlen : lss.flatten.length = n)
    (hC : 0 < e + newSizeSum lss.flatten) :
    ((distribPassNested (deltaFor e n) lss e).2).natAbs < e.natAbs := by
  rw [(distribPassNested_eq (deltaFor e n) lss e).2]
  rcases lt_or_gt_of_ne he with hneg | hpos
  · -- extra_bytes < 0 : the sweep strictly raises it toward 0 and cannot overshoot
    obtain ⟨b, rfl⟩ := Int.exists_eq_neg_ofNat hneg.le
    have hb : 0 < b := by
      by_contra hb
      have : b = 0 := by omega
      subst this
      simp at hneg
    have hbZ : (0 : ℤ) < (b : ℤ) := by exact_mod_cast hb
    have hbpos : 0 < newSizeSum lss.flatten := by linarith
    obtain ⟨w, hw, hwp⟩ := exists_pos_of_sum_pos lss.flatten hnn hbpos
    have htd : (-(b : ℤ)).tdiv (n : ℤ) = -(((b / n : ℕ) : ℤ)) := by
      rw [Int.neg_tdiv]
      rfl
    by_cases hz : b / n = 0
    · have hdelta : deltaFor (-(b : ℤ)) n = -1 := by
        simp only [deltaFor]
        rw [htd, hz]
        simp [hneg]
      rw [hdelta]
      have hstrict := distribPass_neg_strict (-1) (by norm_num) lss.flatten (-(b : ℤ))
        hnn hneg ⟨w, hw, hwp⟩
      have hbound := distribPass_negone_bound lss.flatten (-(b : ℤ)) hnn hneg.le
      omega
    · have hdz : ¬(-(((b / n : ℕ) : ℤ)) = 0) := by
        simp only [neg_eq_zero, Nat.cast_eq_zero]
        exact hz
      have hdelta : deltaFor (-(b : ℤ)) n = -(((b / n : ℕ) : ℤ)) := by
        simp only [deltaFor]
        rw [htd, if_neg hdz]
      have hdneg : -(((b / n : ℕ) : ℤ)) < 0 := by
        rw [neg_lt_zero]
        exact_mod_cast Nat.pos_of_ne_zero hz
      have hmulN : n * (b / n) ≤ b := Nat.le.intro (Nat.div_add_mod b n)
      have hmul : (n : ℤ) * ((b / n : ℕ) : ℤ) ≤ (b : ℤ) := by exact_mod_cast hmulN
      have hbudget : -(b : ℤ) + (lss.flatten.length : ℤ) * (-(-(((b / n : ℕ) : ℤ)))) ≤ 0 := by
        rw [hlen, neg_neg]
        linarith
      rw [hdelta]
      have hstrict := distribPass_neg_strict _ hdneg lss.flatten (-(b : ℤ))
        hnn hneg ⟨w, hw, hwp⟩
      have hbound := distribPass_neg_bound _ hdneg lss.flatten (-(b : ℤ))
        hnn hneg.le hbudget
      omega
  · -- extra_bytes > 0 : the sweep lands on extra_bytes mod n (or on 0)
    obtain ⟨a, rfl⟩ := Int.eq_ofNat_of_zero_le hpos.le
    have ha : 0 < a := by exact_mod_cast hpos
    have htd : ((a : ℤ)).tdiv (n : ℤ) = ((a / n : ℕ) : ℤ) := rfl
    have hanneg : ¬((a : ℤ) < 0) := not_lt.mpr (by positivity)
    by_cases hz : a / n = 0
    · have halt : a < n := (Nat.div_eq_zero_iff hn).mp hz
      have hdelta : deltaFor (a : ℤ) n = 1 := by
        simp only [deltaFor]
        rw [htd, hz]
        simp [hanneg]
      rw [hdelta]
      have hone := distribPass_pos_one lss.flatten (a : ℤ) hnn (by positivity)
        (by rw [hlen]; exact_mod_cast halt.le)
      rw [hone]
      simpa using ha
    · have hge : n ≤ a := by
        by_contra hlt
        exact hz ((Nat.div_eq_zero_iff hn).mpr (by omega))
      have hdz : ¬(((a / n : ℕ) : ℤ) = 0) := by
        simp only [Nat.cast_eq_zero]
        exact hz
      have hdelta : deltaFor (a : ℤ) n = ((a / n : ℕ) : ℤ) := by
        simp only [deltaFor]
        rw [htd, if_neg hdz]
      have hdpos : (0 : ℤ) < ((a / n : ℕ) : ℤ) :=
        by exact_mod_cast Nat.pos_of_ne_zero hz
      have hmul : (lss.flatten.length : ℤ) * ((a / n : ℕ) : ℤ) ≤ (a : ℤ) := by
        rw [hlen]
        exact_mod_cast Nat.le.intro (Nat.div_add_mod a n)
      rw [hdelta]
      rw [distribPass_pos_full _ hdpos lss.flatten (a : ℤ) hnn hmul]
      have hcast : (n : ℤ) * ((a / n : ℕ) : ℤ) + ((a % n : ℕ) : ℤ) = (a : ℤ) := by
        exact_mod_cast Nat.div_add_mod a n
      have hmod : ((a : ℤ)) - (lss.flatten.length : ℤ) * ((a / n : ℕ) : ℤ) =
          ((a % n : ℕ) : ℤ) := by
        rw [hlen]
        linarith
      rw [hmod]
      have hmlt : a % n < n := Nat.mod_lt _ hn
      simp only [Int.natAbs_ofNat]
      omega

/-! ## The distribution loop: termination, conservation, nonnegativity -/

/-- Fuel `|extra_bytes|` always suffices, and the loop establishes exact
conservation, nonnegativity, and preservation of the non-`new_size`
fields. -/
theorem distribLoop_spec (fuel n : ℕ) (lss : List (List cache_data_t)) (e : ℤ)
    (hn : 0 < n) (hlen : lss.flatten.length = n)
    (hnn : ∀ d ∈ lss.flatten, 0 ≤ d.new_size)
    (hC : 0 < e + newSizeSum lss.flatten)
    (hfuel : e.natAbs ≤ fuel) :
    ∃ out, distribLoop n fuel lss e = some out ∧
      newSizeSum out.flatten = e + newSizeSum lss.flatten ∧
      (∀ d ∈ out.flatten, 0 ≤ d.new_size) ∧
      out.map shapeOf = lss.map shapeOf := by
  induction fuel generalizing lss e with
  | zero =>
    have he : e = 0 := by omega
    subst he
    exact ⟨lss, by simp [distribLoop], by simp, hnn, rfl⟩
  | succ fuel ih =>
    by_cases he : e = 0
    · subst he
      exact ⟨lss, by simp [distribLoop], by simp, hnn, rfl⟩
    · have hflat := (distribPassNested_eq (deltaFor e n) lss e).1
      have hsnd := (distribPassNested_eq (deltaFor e n) lss e).2
      have hdec := passNested_decreases n hn lss e he hnn hlen hC
      set r := distribPassNested (deltaFor e n) lss e with hr
      have hsum : r.2 + newSizeSum r.1.flatten = e + newSizeSum lss.flatten := by
        rw [hflat, hsnd]
        exact distribPass_sum (deltaFor e n) lss.flatten e
      have hnn' : ∀ d ∈ r.1.flatten, 0 ≤ d.new_size := by
        rw [hflat]
        exact distribPass_nonneg (deltaFor e n) lss.flatten e hnn
      have hshape := distribPassNested_shape (deltaFor e n) lss e
      have hlenPass : (distribPass (deltaFor e n) lss.flatten e).1.length =
          lss.flatten.length := by
        have h := congrArg List.length (distribPass_shape (deltaFor e n) lss.flatten e)
        simp only [shapeOf, List.length_map] at h
        exact h
      have hlen' : r.1.flatten.length = n := by
        rw [hflat, hlenPass, hlen]
      have hC' : 0 < r.2 + newSizeSum r.1.flatten := by
        rw [hsum]
        exact hC
      obtain ⟨out, h1, h2, h3, h4⟩ := ih r.1 r.2 hlen' hnn' hC' (by omega)
      refine ⟨out, ?_, ?_, h3, ?_⟩
      · simp only [distribLoop, if_neg he]
        exact h1
      · rw [h2, hsum]
      · rw [h4, hshape]

/-- The flattened sized snapshot is the sizing map over the flattened
snapshot. -/
theorem sizedData_flatten (st : balancer_t) :
    (sizedData st).flatten =
      (snapshot st).flatten.map (sizedRecord st.total_cache_size (total_bytes_loaded st)) := by
  rw [sizedData, ← List.map_flatten]

/-- The sizing formula clamps at zero. -/
theorem sized_nonneg (st : balancer_t) :
    ∀ d ∈ (sizedData st).flatten, 0 ≤ d.new_size := by
  rw [sizedData_flatten]
  intro d hd
  obtain ⟨x, _, rfl⟩ := List.mem_map.mp hd
  simp [sizedRecord]

/-- Sizing preserves the record count, which equals `total_evicters`. -/
theorem sized_length (st : balancer_t) :
    (sizedData st).flatten.length = total_evicters st := by
  rw [sizedData_flatten, List.length_map, List.length_flatten, total_evicters]

/-! ## Claim C1: exact conservation -/

/-- C1.  For every rebalance pass with `total_cache_size > 0` and at least
one snapshotted evicter, after remainder distribution the `new_size` values
sum to `total_cache_size` exactly and every `new_size` is nonnegative. -/
theorem rebalance_conserves (st : balancer_t)
    (h1 : 0 < st.total_cache_size) (h2 : 0 < total_evicters st) :
    newSizeSum (rebalanced st).flatten = (st.total_cache_size : ℤ) ∧
    ∀ d ∈ (rebalanced st).flatten, 0 ≤ d.new_size := by
  have htcs : (0 : ℤ) < (st.total_cache_size : ℤ) := by exact_mod_cast h1
  have hC : 0 < extra_bytes st + newSizeSum (sizedData st).flatten := by
    unfold extra_bytes
    linarith
  obtain ⟨out, hsome, hsum, hnn, _⟩ :=
    distribLoop_spec (extra_bytes st).natAbs (total_evicters st) (sizedData st)
      (extra_bytes st) h2 (sized_length st) (sized_nonneg st) hC le_rfl
  have hreb : rebalanced st = out := by
    rw [rebalanced, hsome]
    rfl
  rw [hreb, hsum]
  refine ⟨?_, hnn⟩
  unfold extra_bytes
  ring

theorem rebalance_conserves_witness :
    newSizeSum (rebalanced stC1).flatten = (stC1.total_cache_size : ℤ) ∧
    0 < stC1.total_cache_size ∧ 0 < total_evicters stC1 :=
  ⟨(rebalance_conserves stC1 (by decide) (by decide)).1, by decide, by decide⟩

/-! ## Claim C2: termination of the remainder-distribution loop -/

/-- C2.  For any finite per-thread lists of records with nonnegative
`new_size`, any `total_cache_size > 0` and at least one record, the
distribution loop terminates within `|extra_bytes|` sweeps (the fueled
computation succeeds), because each full sweep either finishes or strictly
reduces `|extra_bytes|` (second conjunct). -/
theorem distrib_terminates (lss : List (List cache_data_t)) (tcs : ℕ)
    (h1 : 0 < tcs) (hn : 0 < lss.flatten.length)
    (hnn : ∀ d ∈ lss.flatten, 0 ≤ d.new_size) :
    ((distribLoop lss.flatten.length
        ((tcs : ℤ) - newSizeSum lss.flatten).natAbs lss
        ((tcs : ℤ) - newSizeSum lss.flatten)).isSome = true) ∧
    (∀ (lss' : List (List cache_data_t)) (e' : ℤ), e' ≠ 0 →
      lss'.flatten.length = lss.flatten.length →
      (∀ d ∈ lss'.flatten, 0 ≤ d.new_size) →
      0 < e' + newSizeSum lss'.flatten →
      ((distribPassNested (deltaFor e' lss.flatten.length) lss' e').2).natAbs <
        e'.natAbs) := by
  constructor
  · have htcs : (0 : ℤ) < (tcs : ℤ) := by exact_mod_cast h1
    obtain ⟨out, hsome, _, _, _⟩ :=
      distribLoop_spec ((tcs : ℤ) - newSizeSum lss.flatten).natAbs
        lss.flatten.length lss ((tcs : ℤ) - newSizeSum lss.flatten)
        hn rfl hnn (by linarith) le_rfl
    rw [hsome]
    rfl
  · intro lss' e' he' hlen' hnn' hC'
    exact passNested_decreases lss.flatten.length hn lss' e' he' hnn' hlen' hC'

theorem distrib_terminates_witness :
    (distribLoop ([[⟨1, 2, 5, 0⟩]] : List (List cache_data_t)).flatten.length
        ((7 : ℤ) - newSizeSum ([[⟨1, 2, 5, 0⟩]] : List (List cache_data_t)).flatten).natAbs
        [[⟨1, 2, 5, 0⟩]]
        ((7 : ℤ) - newSizeSum ([[⟨1, 2, 5, 0⟩]] : List (List cache_data_t)).flatten)).isSome
      = true :=
  (distrib_terminates [[⟨1, 2, 5, 0⟩]] 7 (by decide) (by decide) (by decide)).1

/-! ## Claim C3: the proportional sizing formula and the spec's scenario -/

/-- C3.  Every record is sized to
`max(0, bytes_loaded + old_size - trunc(old_size / total_cache_size *
total_bytes_loaded))` with binary64 intermediates truncated to an integer;
on the spec's scenario (budget 1000, A = (600, 300), B = (400, 100)) this
yields 660 and 340 with `extra_bytes = 0`, so remainder distribution changes
nothing. -/
theorem sizing_formula :
    (∀ (tcs tbl : ℕ) (d : cache_data_t),
      (sizedRecord tcs tbl d).new_size =
        max ((d.bytes_loaded : ℤ) + (d.old_size : ℤ) -
          fpToInt (fpMul (fpDiv (u64ToDouble d.old_size) (u64ToDouble tcs))
            (u64ToDouble tbl))) 0) ∧
    (sizedData stC3).map (List.map cache_data_t.new_size) = [[660, 340]] ∧
    extra_bytes stC3 = 0 ∧
    (rebalanced stC3).map (List.map cache_data_t.new_size) = [[660, 340]] := by
  refine ⟨?_, by decide, by decide, by decide⟩
  intro tcs tbl d
  simp only [sizedRecord]
  omega

/-! ## Claim C4: the trigger policy -/

/-- C4.  A tick with elapsed time under the 500 ms timeout and a total
access count under 100 changes nothing and enqueues nothing; otherwise the
tick sets `last_rebalance_time := now` and enqueues exactly one rebalance
request, regardless of the access count once the timeout has elapsed. -/
theorem on_ring_spec (st : balancer_t) (now : ℕ) :
    (now < st.last_rebalance_time + rebalance_timeout_ms * 1000 →
      totalAccesses st < rebalance_access_count_threshold →
      on_ring st now = (st, false)) ∧
    (st.last_rebalance_time + rebalance_timeout_ms * 1000 ≤ now ∨
      rebalance_access_count_threshold ≤ totalAccesses st →
      on_ring st now = ({ st with last_rebalance_time := now }, true)) := by
  constructor
  · intro h1 h2
    simp [on_ring, h1, h2]
  · intro h
    rcases h with h | h
    · have hnot : ¬(st.last_rebalance_time + rebalance_timeout_ms * 1000 > now) := by
        omega
      simp [on_ring, hnot]
    · by_cases ht : st.last_rebalance_time + rebalance_timeout_ms * 1000 > now
      · simp [on_ring, ht, not_lt.mpr h]
      · simp [on_ring, ht]

theorem on_ring_spec_witness :
    on_ring stC4 0 = (stC4, false) ∧
    on_ring stC4 500000 = ({ stC4 with last_rebalance_time := 500000 }, true) :=
  ⟨(on_ring_spec stC4 0).1 (by decide) (by decide),
   (on_ring_spec stC4 500000).2 (Or.inl (by decide))⟩

/-! ## Claim C5: the read-ahead latch is monotone -/

/-- A single pass never turns the latch back on. -/
theorem coro_read_ahead_false (st : balancer_t) (h : st.read_ahead_ok = false) :
    (coro_pool_callback st).read_ahead_ok = false := by
  by_cases hg : 0 < st.total_cache_size ∧ 0 < total_evicters st
  · simp [coro_pool_callback, hg, h]
  · simp [coro_pool_callback, hg, h]

/-- C5.  Once `read_ahead_ok` is false it stays false under any sequence of
rebalance passes, whatever the environment (heaps, registries, occupancy)
does in between. -/
theorem read_ahead_latch (st : balancer_t) (h : st.read_ahead_ok = false)
    (envs : List ((ℕ → evicter_t) × List thread_info_t)) :
    (envs.foldl (fun s env => coro_pool_callback (applyEnv s env)) st).read_ahead_ok
      = false := by
  induction envs generalizing st with
  | nil => simpa using h
  | cons env rest ih =>
    simp only [List.foldl_cons]
    exact ih _ (coro_read_ahead_false _ (by simpa [applyEnv] using h))

theorem read_ahead_latch_witness :
    (([((fun _ => ⟨5, 0, 2⟩ : ℕ → evicter_t), [⟨0, [1]⟩]),
       ((fun _ => ⟨5, 0, 0⟩ : ℕ → evicter_t), [⟨0, [1]⟩])].foldl
        (fun s env => coro_pool_callback (applyEnv s env)) stC5).read_ahead_ok
      = false) :=
  read_ahead_latch stC5 rfl _

/-! ## Claim C6: the latch update is the exact integer comparison -/

/-- C6.  A full pass that reaches the latch step with `read_ahead_ok = true`
sets it to exactly `cache_usage * 10 < total_cache_size * 9`; in particular
usage 920 against budget 1000 turns it off. -/
theorem read_ahead_update :
    (∀ st : balancer_t, st.read_ahead_ok = true →
      0 < st.total_cache_size → 0 < total_evicters st →
      (coro_pool_callback st).read_ahead_ok =
        decide (cache_usage st * read_ahead_ratio_denominator <
                st.total_cache_size * read_ahead_ratio_numerator)) ∧
    cache_usage stC6 = 920 ∧ stC6.total_cache_size = 1000 ∧
    (coro_pool_callback stC6).read_ahead_ok = false := by
  refine ⟨?_, by decide, rfl, by decide⟩
  intro st hok h1 h2
  simp [coro_pool_callback, hok, h1, h2]

theorem read_ahead_update_witness :
    (coro_pool_callback stC6).read_ahead_ok =
      decide (cache_usage stC6 * read_ahead_ratio_denominator <
              stC6.total_cache_size * read_ahead_ratio_numerator) :=
  read_ahead_update.1 stC6 rfl (by decide) (by decide)

/-! ## Claim C7: the early exit has no side effects -/

/-- C7.  A pass observing a zero budget or zero snapshotted evicters leaves
the whole state untouched: no limit changes, no registry changes, and that
is not an error. -/
theorem early_exit_no_effect (st : balancer_t)
    (h : st.total_cache_size = 0 ∨ total_evicters st = 0) :
    coro_pool_callback st = st := by
  have hg : ¬(0 < st.total_cache_size ∧ 0 < total_evicters st) := by
    rcases h with h | h <;> omega
  simp [coro_pool_callback, hg]

theorem early_exit_no_effect_witness :
    total_evicters stC7 = 0 ∧ coro_pool_callback stC7 = stC7 :=
  ⟨by decide, early_exit_no_effect stC7 (Or.inr (by decide))⟩

/-! ## Claim C8: the apply step -/

/-- Evicters not named by any record keep their state. -/
theorem applyLoop_frame (evs : List ℕ) (sizes : List cache_data_t)
    (heap : ℕ → evicter_t) (x : ℕ) (hx : x ∉ sizes.map cache_data_t.evicter) :
    (applyLoop evs sizes heap).1 x = heap x := by
  induction sizes generalizing heap with
  | nil => simp [applyLoop]
  | cons d rest ih =>
    simp only [List.map_cons, List.mem_cons] at hx
    push_neg at hx
    by_cases hd : d.evicter ∈ evs
    · simp only [applyLoop, if_pos hd]
      rw [ih _ hx.2]
      simp [update_memory_limit, hx.1]
    · simp only [applyLoop, if_neg hd]
      exact ih _ hx.2

/-- Pointwise effect of the apply loop on the heap: a still-registered
record's evicter gets its new limit; a vanished one is untouched. -/
theorem applyLoop_heap (evs : List ℕ) (sizes : List cache_data_t)
    (heap : ℕ → evicter_t) (hnd : (sizes.map cache_data_t.evicter).Nodup)
    (d : cache_data_t) (hd : d ∈ sizes) :
    (applyLoop evs sizes heap).1 d.evicter =
      (if d.evicter ∈ evs then { heap d.evicter with memory_limit := d.new_size.toNat }
       else heap d.evicter) := by
  induction sizes generalizing heap with
  | nil => simp at hd
  | cons a rest ih =>
    simp only [List.map_cons, List.nodup_cons] at hnd
    rcases List.mem_cons.mp hd with rfl | hd'
    · by_cases ha : d.evicter ∈ evs
      · simp only [applyLoop, if_pos ha]
        rw [applyLoop_frame evs rest _ d.evicter hnd.1]
        simp [update_memory_limit, if_pos ha]
      · simp only [applyLoop, if_neg ha]
        rw [applyLoop_frame evs rest _ d.evicter hnd.1]
    · have hne : a.evicter ≠ d.evicter := by
        intro hcontra
        exact hnd.1 (hcontra ▸ List.mem_map_of_mem _ hd')
      by_cases ha : a.evicter ∈ evs
      · simp only [applyLoop, if_pos ha]
        rw [ih _ hnd.2 hd']
        simp [update_memory_limit, hne.symm]
      · simp only [applyLoop, if_neg ha]
        exact ih _ hnd.2 hd'

/-- The per-thread usage accumulator sums the in-memory sizes of exactly the
records whose evicters are still registered. -/
theorem applyLoop_usage (evs : List ℕ) (sizes : List cache_data_t)
    (heap : ℕ → evicter_t) (hnd : (sizes.map cache_data_t.evicter).Nodup) :
    (applyLoop evs sizes heap).2 =
      ((sizes.filter (fun d => decide (d.evicter ∈ evs))).map
        (fun d => (heap d.evicter).in_memory_size)).sum := by
  induction sizes generalizing heap with
  | nil => simp [applyLoop]
  | cons a rest ih =>
    simp only [List.map_cons, List.nodup_cons] at hnd
    by_cases ha : a.evicter ∈ evs
    · simp only [applyLoop, if_pos ha, List.filter_cons, decide_eq_true ha,
        if_pos, List.map_cons, List.sum_cons]
      have hup : (update_memory_limit heap a.evicter a.new_size.toNat
          a.evicter).in_memory_size = (heap a.evicter).in_memory_size := by
        simp [update_memory_limit]
      rw [ih _ hnd.2]
      have hcongr :
          ((rest.filter (fun d => decide (d.evicter ∈ evs))).map
            (fun d => ((update_memory_limit heap a.evicter a.new_size.toNat)
              d.evicter).in_memory_size)) =
          ((rest.filter (fun d => decide (d.evicter ∈ evs))).map
            (fun d => (heap d.evicter).in_memory_size)) := by
        apply List.map_eq_map_iff.mpr
        intro x hxf
        have hxr : x ∈ rest := List.mem_of_mem_filter hxf
        have hne : x.evicter ≠ a.evicter := by
          intro hcontra
          exact hnd.1 (hcontra ▸ List.mem_map_of_mem _ hxr)
        simp [update_memory_limit, hne]
      rw [hcongr, hup]
    · simp only [applyLoop, if_neg ha, List.filter_cons]
      have : (decide (a.evicter ∈ evs)) = false := decide_eq_false ha
      rw [this]
      simp only [Bool.false_eq_true, if_neg (by simp : ¬False)]
      exact ih _ hnd.2

/-- C8.  On one thread's apply step: a record whose evicter vanished from the
registry between snapshot and apply is silently skipped (no limit write, no
usage contribution); every still-registered record's evicter gets its
computed `new_size` as the new limit; and the thread's access counter is
reset to zero. -/
theorem apply_thread_spec (heap : ℕ → evicter_t) (ti : thread_info_t)
    (sizes : List cache_data_t) (hnd : (sizes.map cache_data_t.evicter).Nodup) :
    (∀ d ∈ sizes, d.evicter ∉ ti.evicters →
      (apply_rebalance_to_thread heap ti sizes).1 d.evicter = heap d.evicter) ∧
    (∀ d ∈ sizes, d.evicter ∈ ti.evicters →
      (apply_rebalance_to_thread heap ti sizes).1 d.evicter =
        { heap d.evicter with memory_limit := d.new_size.toNat }) ∧
    (apply_rebalance_to_thread heap ti sizes).2.1 =
      ((sizes.filter (fun d => decide (d.evicter ∈ ti.evicters))).map
        (fun d => (heap d.evicter).in_memory_size)).sum ∧
    (apply_rebalance_to_thread heap ti sizes).2.2 = { ti with access_count := 0 } := by
  refine ⟨?_, ?_, applyLoop_usage ti.evicters sizes heap hnd, rfl⟩
  · intro d hd hreg
    have h := applyLoop_heap ti.evicters sizes heap hnd d hd
    rw [if_neg hreg] at h
    exact h
  · intro d hd hreg
    have h := applyLoop_heap ti.evicters sizes heap hnd d hd
    rw [if_pos hreg] at h
    exact h

theorem apply_thread_spec_witness :
    (apply_rebalance_to_thread heapC8 tiC8 sizesC8).1 2 = heapC8 2 ∧
    (apply_rebalance_to_thread heapC8 tiC8 sizesC8).1 1 =
      { heapC8 1 with memory_limit := 30 } ∧
    (apply_rebalance_to_thread heapC8 tiC8 sizesC8).2.2 =
      { tiC8 with access_count := 0 } := by
  obtain ⟨hA, hB, _, hD⟩ := apply_thread_spec heapC8 tiC8 sizesC8 (by decide)
  exact ⟨hA ⟨2, 40, 60, 0⟩ (by decide) (by decide),
         hB ⟨1, 30, 50, 0⟩ (by decide) (by decide), hD⟩

/-! ## Claim C9: idempotence under no load -/

/-- Multiplication by the binary64 zero is exact. -/
theorem fpMul_zero (x : fp64) : fpMul x ⟨0, 0⟩ = ⟨0, 0⟩ := by
  simp [fpMul, fpRound]

/-- Zero converts exactly. -/
theorem u64ToDouble_zero : u64ToDouble 0 = ⟨0, 0⟩ := by
  simp [u64ToDouble, fpRound]

/-- The binary64 zero truncates to the integer zero. -/
theorem fpToInt_zero : fpToInt (⟨0, 0⟩ : fp64) = 0 := by
  simp [fpToInt]

/-- C9.  When every snapshotted evicter reports zero `bytes_loaded` and the
old sizes already sum to the budget, sizing returns every record's
`old_size` unchanged and the remainder-distribution loop makes no change. -/
theorem no_load_idempotent (st : balancer_t)
    (hload : ∀ d ∈ (snapshot st).flatten, d.bytes_loaded = 0)
    (hsum : ((snapshot st).flatten.map cache_data_t.old_size).sum = st.total_cache_size)
    (_hbudget : 0 < st.total_cache_size) (_hevs : 0 < total_evicters st) :
    (∀ d ∈ (sizedData st).flatten, d.new_size = (d.old_size : ℤ)) ∧
    rebalanced st = sizedData st := by
  have htbl : total_bytes_loaded st = 0 := by
    unfold total_bytes_loaded
    apply List.sum_eq_zero
    intro x hx
    obtain ⟨d, hd, rfl⟩ := List.mem_map.mp hx
    exact hload d hd
  have hpt : ∀ x ∈ (snapshot st).flatten,
      (sizedRecord st.total_cache_size (total_bytes_loaded st) x).new_size =
        (x.old_size : ℤ) := by
    intro x hx
    have hb : x.bytes_loaded = 0 := hload x hx
    rw [htbl]
    simp [sizedRecord, u64ToDouble_zero, fpMul_zero, fpToInt_zero, hb]
  have hpt' : ∀ d ∈ (sizedData st).flatten, d.new_size = (d.old_size : ℤ) := by
    intro d hd
    rw [sizedData_flatten] at hd
    obtain ⟨x, hx, rfl⟩ := List.mem_map.mp hd
    rw [show (sizedRecord st.total_cache_size (total_bytes_loaded st) x).old_size =
      x.old_size from rfl]
    exact hpt x hx
  refine ⟨hpt', ?_⟩
  have hS : newSizeSum (sizedData st).flatten = (st.total_cache_size : ℤ) := by
    unfold newSizeSum
    rw [sizedData_flatten, List.map_map]
    have hmaps :
        ((snapshot st).flatten.map
          (cache_data_t.new_size ∘ sizedRecord st.total_cache_size (total_bytes_loaded st))) =
        ((snapshot st).flatten.map (fun d => (d.old_size : ℤ))) := by
      apply List.map_eq_map_iff.mpr
      intro x hx
      exact hpt x hx
    rw [hmaps]
    rw [show ((snapshot st).flatten.map (fun d => (d.old_size : ℤ))) =
      (((snapshot st).flatten.map cache_data_t.old_size).map (fun n : ℕ => (n : ℤ)))
      from by rw [List.map_map]; rfl]
    rw [← Nat.cast_list_sum, hsum]
  have hextra : extra_bytes st = 0 := by
    unfold extra_bytes
    rw [hS]
    ring
  rw [rebalanced, hextra]
  simp [distribLoop]

theorem no_load_idempotent_witness :
    rebalanced stC9 = sizedData stC9 ∧
    (∀ d ∈ (sizedData stC9).flatten, d.new_size = (d.old_size : ℤ)) :=
  ⟨(no_load_idempotent stC9 (by decide) (by decide) (by decide) (by decide)).2,
   (no_load_idempotent stC9 (by decide) (by decide) (by decide) (by decide)).1⟩

/-! ## Claim C10: the early exit resets nothing; only full passes do -/

/-- Every thread record an apply fan-out returns has its counter reset. -/
theorem applyAll_counts (l : List (thread_info_t × List cache_data_t))
    (heap : ℕ → evicter_t) :
    ∀ ti ∈ (applyAll l heap).2.2, ti.access_count = 0 := by
  induction l generalizing heap with
  | nil => simp [applyAll]
  | cons p rest ih =>
    intro ti hti
    simp only [applyAll, apply_rebalance_to_thread] at hti
    rcases List.mem_cons.mp hti with rfl | hti'
    · rfl
    · exact ih _ ti hti'

/-- C10.  An early-exit pass (zero budget or zero snapshotted evicters)
leaves the per-thread access counters and `read_ahead_ok` untouched; a pass
that runs the full sizing, dispatch and latch steps resets every thread's
access counter to zero. -/
theorem early_exit_frame (st : balancer_t)
    (h : st.total_cache_size = 0 ∨ total_evicters st = 0) :
    (coro_pool_callback st).thread_info = st.thread_info ∧
    (coro_pool_callback st).read_ahead_ok = st.read_ahead_ok ∧
    (∀ st' : balancer_t, 0 < st'.total_cache_size → 0 < total_evicters st' →
      ∀ ti ∈ (coro_pool_callback st').thread_info, ti.access_count = 0) := by
  have hg : ¬(0 < st.total_cache_size ∧ 0 < total_evicters st) := by
    rcases h with h | h <;> omega
  refine ⟨by simp [coro_pool_callback, hg], by simp [coro_pool_callback, hg], ?_⟩
  intro st' h1 h2 ti hti
  have hti' : (coro_pool_callback st').thread_info = (applyResult st').2.2 := by
    by_cases hok : st'.read_ahead_ok <;> simp [coro_pool_callback, h1, h2, hok]
  rw [hti'] at hti
  exact applyAll_counts _ _ ti hti

theorem early_exit_frame_witness :
    (coro_pool_callback stC10).thread_info = stC10.thread_info ∧
    (coro_pool_callback stC10).read_ahead_ok = stC10.read_ahead_ok ∧
    ∀ ti ∈ (coro_pool_callback stC10full).thread_info, ti.access_count = 0 := by
  have h := early_exit_frame stC10 (Or.inl rfl)
  exact ⟨h.1, h.2.1, h.2.2 stC10full (by decide) (by decide)⟩

end CacheBalancer
